import Mathlib

/-!
Verification of the THREELabs Stock-Research-Tools indicator and signal
pipeline.  The Python scripts are shallowly embedded: a pandas `Series` of
closing prices becomes a `List ℚ`, and the IEEE-float special values that
pandas produces on the paths of interest (`NaN` from missing data and
un-windowed rolling means, `±inf` from division by zero) are modelled by the
`PFloat` type below.  All arithmetic on the modelled paths is exact, so the
rational/real values are faithful to the float computation up to rounding,
which none of the verified statements depend on.
-/

/-- A pandas cell value: a finite (rational) number, `±inf`, or `NaN`.
Used for exact modelling of the float arithmetic in the scripts. -/
inductive PFloat where
  | fin (q : ℚ)
  | inf
  | ninf
  | nan
deriving DecidableEq, Repr

namespace PFloat

/-- IEEE-style addition on `PFloat` (NaN propagates, `inf + ninf = NaN`). -/
def add : PFloat → PFloat → PFloat
  | fin a, fin b => fin (a + b)
  | fin _, inf => inf
  | inf, fin _ => inf
  | inf, inf => inf
  | fin _, ninf => ninf
  | ninf, fin _ => ninf
  | ninf, ninf => ninf
  | inf, ninf => nan
  | ninf, inf => nan
  | nan, _ => nan
  | _, nan => nan

/-- IEEE-style negation on `PFloat`. -/
def neg : PFloat → PFloat
  | fin a => fin (-a)
  | inf => ninf
  | ninf => inf
  | nan => nan

/-- IEEE-style subtraction on `PFloat`. -/
def sub (a b : PFloat) : PFloat := add a (neg b)

/-- IEEE-style division on `PFloat`.  Finite numerator over (positive) zero
gives `inf`/`ninf` according to the numerator's sign and `NaN` for `0/0`,
exactly as numpy float division behaves on the scripts' data. -/
def div : PFloat → PFloat → PFloat
  | fin a, fin b =>
      if b = 0 then (if a = 0 then nan else if 0 < a then inf else ninf)
      else fin (a / b)
  | fin _, inf => fin 0
  | fin _, ninf => fin 0
  | inf, fin b => if 0 ≤ b then inf else ninf
  | ninf, fin b => if 0 ≤ b then ninf else inf
  | inf, inf => nan
  | inf, ninf => nan
  | ninf, inf => nan
  | ninf, ninf => nan
  | nan, _ => nan
  | _, nan => nan

/-- Whether a `PFloat` is a finite number. -/
def isFin : PFloat → Bool
  | fin _ => true
  | _ => false

end PFloat

/-- The finite value of a cell, taking `0` on non-finite cells; only ever
applied to lists whose cells are all finite (guarded by `PFloat.isFin`). -/
def pfSum : List PFloat → ℚ
  | [] => 0
  | PFloat.fin q :: rest => q + pfSum rest
  | _ :: rest => pfSum rest

/-- `series.diff()`: day-over-day differences, `NaN` in the first cell.
`diff [c₀, c₁, …]` is `[NaN, c₁ - c₀, …]`. -/
def pdDiff (closes : List ℚ) : List PFloat :=
  match closes with
  | [] => []
  | _ :: _ =>
      PFloat.nan :: List.zipWith (fun a b => PFloat.fin (b - a)) closes closes.tail

/-- `delta.where(delta > 0, 0)`: keep positive deltas, replace everything
else (including the leading `NaN`, which compares false) by `0`. -/
def gainOf : PFloat → PFloat
  | PFloat.fin q => if 0 < q then PFloat.fin q else PFloat.fin 0
  | PFloat.inf => PFloat.inf
  | _ => PFloat.fin 0

/-- `-delta.where(delta < 0, 0)`: keep negative deltas sign-flipped, replace
everything else (including the leading `NaN`) by `0`. -/
def lossOf : PFloat → PFloat
  | PFloat.fin q => if q < 0 then PFloat.fin (-q) else PFloat.fin 0
  | PFloat.ninf => PFloat.inf
  | _ => PFloat.fin 0

/-- `series.rolling(window=w).mean()` with the default
`min_periods = w`: cell `i` is `NaN` until a full window of `w` cells is
available, and otherwise the arithmetic mean of cells `i-w+1 … i`. -/
def rollingMean (w : ℕ) (xs : List PFloat) : List PFloat :=
  (List.range xs.length).map (fun i =>
    if i + 1 < w then PFloat.nan
    else
      let window := (xs.drop (i + 1 - w)).take w
      if window.all PFloat.isFin then PFloat.fin (pfSum window / w) else PFloat.nan)

/-- `series.iloc[-1]` on a non-empty series (`NaN` supplied for the
out-of-domain empty case, which the scripts guard against). -/
def ilocLast (l : List PFloat) : PFloat := l.getD (l.length - 1) PFloat.nan

namespace StockRadar

/-- `calculate_rsi` from StockRadar.py (the identical inline formula also
appears in VolatilityRadar.py, CryptoSqueeze.py and innout-stocks.py):
rolling means of positive-only and sign-flipped negative-only close deltas,
`rs = gain / loss`, `RSI = 100 - 100 / (1 + rs)`, all element-wise. -/
def calculate_rsi (data : List ℚ) (window : ℕ := 14) : List PFloat :=
  let delta := pdDiff data
  let gain := rollingMean window (delta.map gainOf)
  let loss := rollingMean window (delta.map lossOf)
  let rs := List.zipWith PFloat.div gain loss
  rs.map (fun r => PFloat.sub (PFloat.fin 100)
    (PFloat.div (PFloat.fin 100) (PFloat.add (PFloat.fin 1) r)))

/-- `get_recommendations` from StockRadar.py (identical in
innout-stocks.py): buy price discounts the current (last) close by
`max(0.02, |avg_weekly_change|)` when the average weekly change is negative
and by the flat floor `0.02` otherwise; the sell price raises the current
close by `max(0.02, avg_weekly_change)`. -/
def get_recommendations (history : List ℚ) (avg_weekly_change : ℚ) : ℚ × ℚ :=
  let current_price := (history.getLast?).getD 0
  let discount :=
    if avg_weekly_change < 0 then max 0.02 |avg_weekly_change| else 0.02
  let buy_price := current_price * (1 - discount)
  let sell_price := current_price * (1 + max 0.02 avg_weekly_change)
  (buy_price, sell_price)

end StockRadar

namespace CryptoVolatilityTracker

/-- `CryptoVolatilityTracker.calculate_score` from VolatilityHunter.py,
including its shadowing bug: `vol_score` is first set from the volatility
and then immediately overwritten by the normalized volume. -/
def calculate_score (volatility volume : ℚ) (trend : String) : ℚ :=
  let vol_score := volatility * 2
  let vol_score := volume / 1000000
  let trend_score : ℚ := if trend = "up" then 1 else 0.5
  (vol_score + vol_score + trend_score) / 3

end CryptoVolatilityTracker

namespace DropChecker

/-- Membership of one fluctuation value in the configured band
`[MIN_FLUCTUATION, MAX_FLUCTUATION]`. -/
def inBand (minF maxF f : ℚ) : Prop := minF ≤ f ∧ f ≤ maxF

instance (minF maxF f : ℚ) : Decidable (inBand minF maxF f) := by
  unfold inBand; infer_instance

/-- The scanning loop of `check_consecutive_fluctuations`
(default-drop-checker.py, identically in default-drop-checker-GUI.py and
default-crypto-drop-checker.py): a counter of consecutive in-band values
that resets to zero on every miss and reports success as soon as it
reaches `k`. -/
def checkConsecutiveGo (minF maxF : ℚ) (k : ℕ) : List ℚ → ℕ → Bool
  | [], _ => false
  | f :: rest, count =>
      if inBand minF maxF f then
        (if count + 1 = k then true else checkConsecutiveGo minF maxF k rest (count + 1))
      else checkConsecutiveGo minF maxF k rest 0

/-- `check_consecutive_fluctuations` with the module constants
(`MIN_FLUCTUATION`, `MAX_FLUCTUATION`, `CONSECUTIVE_WEEKS`) passed
explicitly; the repository configures them as `2`, `10` and `3`. -/
def check_consecutive_fluctuations (minF maxF : ℚ) (k : ℕ)
    (fluctuations : List ℚ) : Bool :=
  checkConsecutiveGo minF maxF k fluctuations 0

/-- Specification predicate: the first `m` values of the series exist and
all lie in the band. -/
def frontRunOk (minF maxF : ℚ) (m : ℕ) (l : List ℚ) : Prop :=
  m ≤ l.length ∧ ∀ f ∈ l.take m, inBand minF maxF f

/-- Specification predicate: somewhere in the series there is an unbroken
run of at least `k` consecutive values inside the band. -/
def hasRun (minF maxF : ℚ) (k : ℕ) (l : List ℚ) : Prop :=
  ∃ i, i + k ≤ l.length ∧ ∀ f ∈ (l.drop i).take k, inBand minF maxF f

end DropChecker

section Helpers

/-- A shorter initial segment of a list is contained in a longer one. -/
theorem take_mono_subset {α : Type _} {m n : ℕ} (h : m ≤ n) (l : List α) :
    l.take m ⊆ l.take n := by
  intro x hx
  have : l.take m = (l.take n).take m := by
    rw [List.take_take, Nat.min_eq_left h]
  rw [this] at hx
  exact List.take_subset _ _ hx

end Helpers

/-- C1: Price target rule of `get_recommendations` (StockRadar.py,
innout-stocks.py): whenever the current (last) price is positive, the
recommended buy price is strictly below the recommended sell price, for
every finite average weekly change — the discount keeps the buy price at
or below 98% of the current price while the premium keeps the sell price
at or above 102% of it. -/
theorem get_recommendations_buy_lt_sell (history : List ℚ) (awc : ℚ)
    (hp : 0 < (history.getLast?).getD 0) :
    (StockRadar.get_recommendations history awc).1 <
      (StockRadar.get_recommendations history awc).2 := by
  unfold StockRadar.get_recommendations
  simp only
  set p := (history.getLast?).getD 0 with hpdef
  have hs : (0.02 : ℚ) ≤ max 0.02 awc := le_max_left _ _
  by_cases h : awc < 0
  · rw [if_pos h]
    have hd : (0.02 : ℚ) ≤ max 0.02 |awc| := le_max_left _ _
    have : (1 - max 0.02 |awc| : ℚ) < 1 + max 0.02 awc := by linarith
    exact mul_lt_mul_of_pos_left this hp
  · rw [if_neg h]
    have : (1 - 0.02 : ℚ) < 1 + max 0.02 awc := by linarith
    exact mul_lt_mul_of_pos_left this hp

/-- Witness for C1 at the one-bar history `[100]` with zero average weekly
change. -/
theorem get_recommendations_buy_lt_sell_witness :
    0 < ((([100] : List ℚ).getLast?).getD 0) ∧
      (StockRadar.get_recommendations [100] 0).1 <
        (StockRadar.get_recommendations [100] 0).2 :=
  ⟨by simp, get_recommendations_buy_lt_sell [100] 0 (by simp)⟩

/-- C8: `CryptoVolatilityTracker.calculate_score` (VolatilityHunter.py) is
independent of its volatility argument: the volatility sub-score is
shadowed by the volume sub-score before it is ever read, so any two
volatility inputs give the same score for a fixed volume and trend. -/
theorem calculate_score_ignores_volatility (v₁ v₂ volume : ℚ) (trend : String) :
    CryptoVolatilityTracker.calculate_score v₁ volume trend =
      CryptoVolatilityTracker.calculate_score v₂ volume trend := rfl

namespace DropChecker

/-- Correctness of the reset-on-miss scanning loop: with `c` in-band values
already accumulated (`c < k`), the loop succeeds exactly when the series
starts with `k - c` further in-band values, or contains a full in-band run
of length `k` somewhere. -/
theorem checkConsecutiveGo_iff (minF maxF : ℚ) (k : ℕ) (l : List ℚ) :
    ∀ c : ℕ, c < k →
      (checkConsecutiveGo minF maxF k l c = true ↔
        (frontRunOk minF maxF (k - c) l ∨ hasRun minF maxF k l)) := by
  induction l with
  | nil =>
      intro c hc
      rw [checkConsecutiveGo]
      simp only [Bool.false_eq_true, false_iff]
      rintro (⟨hlen, -⟩ | ⟨i, hlen, -⟩) <;> simp at hlen <;> omega
  | cons f rest ih =>
      intro c hc
      by_cases hf : inBand minF maxF f
      · by_cases hk : c + 1 = k
        · rw [checkConsecutiveGo, if_pos hf, if_pos hk]
          simp only [true_iff]
          left
          have hkc : k - c = 1 := by omega
          refine ⟨by simp [hkc], ?_⟩
          intro x hx
          rw [hkc, List.take_succ_cons, List.take_zero] at hx
          rcases List.mem_cons.mp hx with rfl | hx
          · exact hf
          · simp at hx
        · have hck : c + 1 < k := by omega
          rw [checkConsecutiveGo, if_pos hf, if_neg hk, ih (c + 1) hck]
          have h1 : k - c = (k - (c + 1)) + 1 := by omega
          constructor
          · rintro (⟨hlen, hmem⟩ | ⟨i, hlen, hmem⟩)
            · left
              refine ⟨by simp; omega, ?_⟩
              intro x hx
              rw [h1, List.take_succ_cons] at hx
              rcases List.mem_cons.mp hx with rfl | hx
              · exact hf
              · exact hmem x hx
            · right
              exact ⟨i + 1, by simp; omega, by simpa using hmem⟩
          · rintro (⟨hlen, hmem⟩ | ⟨i, hlen, hmem⟩)
            · left
              simp only [List.length_cons] at hlen
              refine ⟨by omega, ?_⟩
              intro x hx
              apply hmem
              rw [h1, List.take_succ_cons]
              exact List.mem_cons_of_mem f hx
            · cases i with
              | zero =>
                  left
                  simp only [List.length_cons, Nat.zero_add] at hlen
                  refine ⟨by omega, ?_⟩
                  intro x hx
                  apply hmem
                  simp only [List.drop_zero]
                  have h2 : k = (k - 1) + 1 := by omega
                  rw [h2, List.take_succ_cons]
                  exact List.mem_cons_of_mem f
                    (take_mono_subset (by omega) rest hx)
              | succ j =>
                  right
                  refine ⟨j, ?_, ?_⟩
                  · simp only [List.length_cons] at hlen; omega
                  · intro x hx
                    apply hmem
                    rw [List.drop_succ_cons]
                    exact hx
      · have h0 : 0 < k := by omega
        rw [checkConsecutiveGo, if_neg hf, ih 0 h0, Nat.sub_zero]
        constructor
        · rintro (⟨hlen, hmem⟩ | ⟨i, hlen, hmem⟩)
          · right
            exact ⟨1, by simp; omega, by simpa using hmem⟩
          · right
            exact ⟨i + 1, by simp; omega, by simpa using hmem⟩
        · rintro (⟨hlen, hmem⟩ | ⟨i, hlen, hmem⟩)
          · exfalso
            apply hf
            apply hmem
            have h1 : k - c = (k - c - 1) + 1 := by omega
            rw [h1, List.take_succ_cons]
            exact List.mem_cons_self _ _
          · cases i with
            | zero =>
                exfalso
                apply hf
                apply hmem
                simp only [List.drop_zero]
                have h2 : k = (k - 1) + 1 := by omega
                rw [h2, List.take_succ_cons]
                exact List.mem_cons_self _ _
            | succ j =>
                right
                refine ⟨j, ?_, ?_⟩
                · simp only [List.length_cons] at hlen; omega
                · intro x hx
                  apply hmem
                  rw [List.drop_succ_cons]
                  exact hx

end DropChecker

/-- C3: `check_consecutive_fluctuations` returns `True` for a fluctuation
series exactly when the series contains an unbroken run of at least `k`
values inside the band `[minF, maxF]` anywhere (not only a trailing run),
for any positive required run length `k`. -/
theorem check_consecutive_fluctuations_iff_hasRun (minF maxF : ℚ) (k : ℕ)
    (l : List ℚ) (hk : 1 ≤ k) :
    DropChecker.check_consecutive_fluctuations minF maxF k l = true ↔
      DropChecker.hasRun minF maxF k l := by
  unfold DropChecker.check_consecutive_fluctuations
  rw [DropChecker.checkConsecutiveGo_iff minF maxF k l 0 (by omega), Nat.sub_zero]
  constructor
  · rintro (⟨hlen, hmem⟩ | h)
    · exact ⟨0, by simpa using hlen, by simpa using hmem⟩
    · exact h
  · intro h
    right
    exact h

/-- Witness for C3 at the claim's example: band `[2, 10]`, `k = 3`, and the
series `[1, 6, 6, 6, 1]` (which contains the run at indices 1–3). -/
theorem check_consecutive_fluctuations_iff_hasRun_witness :
    1 ≤ 3 ∧
      (DropChecker.check_consecutive_fluctuations 2 10 3 [1, 6, 6, 6, 1] = true ↔
        DropChecker.hasRun 2 10 3 [1, 6, 6, 6, 1]) :=
  ⟨by norm_num, check_consecutive_fluctuations_iff_hasRun 2 10 3 [1, 6, 6, 6, 1] (by norm_num)⟩

namespace VolatilityRadar

/-- A trade action recorded by the backtest loop ('buy'/'sell' strings in
the source). -/
inductive TradeAction where
  | buy
  | sell
deriving DecidableEq, Repr

/-- One recorded trade: action, bar index (the row label) and price. -/
abbrev Trade := TradeAction × ℕ × ℚ

/-- `df['buy_signal']`: close dipped by at least `buy_dip_percentage`%
from the previous close; false on the first bar, where the shifted close
is `NaN` and the comparison is false. -/
def buy_signal (buy_dip_percentage : ℚ) (prev : Option ℚ) (c : ℚ) : Bool :=
  match prev with
  | none => false
  | some p => decide (c ≤ p * (1 - buy_dip_percentage / 100))

/-- `df['sell_signal']`: close rose by at least `sell_rise_percentage`%
from the previous close; false on the first bar. -/
def sell_signal (sell_rise_percentage : ℚ) (prev : Option ℚ) (c : ℚ) : Bool :=
  match prev with
  | none => false
  | some p => decide (p * (1 + sell_rise_percentage / 100) ≤ c)

/-- The bar rows iterated by `df.iterrows()`: index, previous close
(`None` on the first row, mirroring `close.shift(1)`) and close. -/
def rowsAux : ℕ → Option ℚ → List ℚ → List (ℕ × Option ℚ × ℚ)
  | _, _, [] => []
  | i, prev, c :: rest => (i, prev, c) :: rowsAux (i + 1) (some c) rest

/-- All bar rows of a close series, starting at index 0. -/
def rows (closes : List ℚ) : List (ℕ × Option ℚ × ℚ) := rowsAux 0 none closes

/-- The position state machine of `simulate_trading_strategy`: buy when
flat and the buy signal fires, sell when long and the sell signal fires.
Returns the recorded trades and the final position (`true` = long). -/
def simLoop (bd sr : ℚ) : List (ℕ × Option ℚ × ℚ) → Bool → List Trade × Bool
  | [], pos => ([], pos)
  | (i, prev, c) :: rest, pos =>
      if pos = false ∧ buy_signal bd prev c = true then
        let r := simLoop bd sr rest true
        ((TradeAction.buy, i, c) :: r.1, r.2)
      else if pos = true ∧ sell_signal sr prev c = true then
        let r := simLoop bd sr rest false
        ((TradeAction.sell, i, c) :: r.1, r.2)
      else simLoop bd sr rest pos

/-- `simulate_trading_strategy` from VolatilityRadar.py: run the position
state machine over all bars and close any still-open position at the final
bar. -/
def simulate_trading_strategy (closes : List ℚ)
    (buy_dip_percentage : ℚ := 5) (sell_rise_percentage : ℚ := 5) : List Trade :=
  let r := simLoop buy_dip_percentage sell_rise_percentage (rows closes) false
  if r.2 = true then
    r.1 ++ [(TradeAction.sell, closes.length - 1, (closes.getLast?).getD 0)]
  else r.1

/-- The action expected next given the current position: a buy when flat,
a sell when long. -/
def expAct (pos : Bool) : TradeAction :=
  if pos then TradeAction.sell else TradeAction.buy

/-- Specification predicate: the trade list strictly alternates actions,
starting with the action expected for position `pos`. -/
def altFrom : Bool → List Trade → Prop
  | _, [] => True
  | pos, t :: ts => t.1 = expAct pos ∧ altFrom (!pos) ts

theorem simLoop_altFrom (bd sr : ℚ) :
    ∀ (l : List (ℕ × Option ℚ × ℚ)) (pos : Bool),
      altFrom pos (simLoop bd sr l pos).1 := by
  intro l
  induction l with
  | nil => intro pos; trivial
  | cons row rest ih =>
      intro pos
      obtain ⟨i, prev, c⟩ := row
      rw [simLoop]
      by_cases hb : pos = false ∧ buy_signal bd prev c = true
      · obtain ⟨hpos, hsig⟩ := hb
        subst hpos
        rw [if_pos ⟨rfl, hsig⟩]
        exact ⟨rfl, ih true⟩
      · rw [if_neg hb]
        by_cases hs : pos = true ∧ sell_signal sr prev c = true
        · obtain ⟨hpos, hsig⟩ := hs
          subst hpos
          rw [if_pos ⟨rfl, hsig⟩]
          exact ⟨rfl, ih false⟩
        · rw [if_neg hs]
          exact ih pos

theorem simLoop_parity (bd sr : ℚ) :
    ∀ (l : List (ℕ × Option ℚ × ℚ)) (pos : Bool),
      ((simLoop bd sr l pos).2 = pos ↔ (simLoop bd sr l pos).1.length % 2 = 0) := by
  intro l
  induction l with
  | nil => intro pos; simp [simLoop]
  | cons row rest ih =>
      intro pos
      obtain ⟨i, prev, c⟩ := row
      rw [simLoop]
      by_cases hb : pos = false ∧ buy_signal bd prev c = true
      · rw [if_pos hb, hb.1]
        have := ih true
        cases hr : (simLoop bd sr rest true).2 <;>
          simp [hr] at this ⊢ <;> omega
      · rw [if_neg hb]
        by_cases hs : pos = true ∧ sell_signal sr prev c = true
        · rw [if_pos hs, hs.1]
          have := ih false
          cases hr : (simLoop bd sr rest false).2 <;>
            simp [hr] at this ⊢ <;> omega
        · rw [if_neg hs]
          exact ih pos

theorem altFrom_append_single :
    ∀ (l : List Trade) (pos : Bool) (t : Trade),
      altFrom pos l → t.1 = expAct (pos ^^ decide (l.length % 2 = 1)) →
      altFrom pos (l ++ [t]) := by
  intro l
  induction l with
  | nil =>
      intro pos t _ ht
      refine ⟨?_, trivial⟩
      simpa using ht
  | cons u us ih =>
      intro pos t hl ht
      refine ⟨hl.1, ?_⟩
      apply ih (!pos) t hl.2
      rw [ht]
      congr 1
      cases pos <;> rcases Nat.mod_two_eq_zero_or_one us.length with h | h <;>
        simp [List.length_cons, Nat.add_mod, h]

theorem altFrom_getElem :
    ∀ (l : List Trade) (pos : Bool), altFrom pos l →
      ∀ (i : ℕ) (h : i < l.length),
        l[i].1 = expAct (pos ^^ decide (i % 2 = 1)) := by
  intro l
  induction l with
  | nil => intro pos _ i h; simp at h
  | cons u us ih =>
      intro pos hl i h
      cases i with
      | zero => simpa using hl.1
      | succ j =>
          have := ih (!pos) hl.2 j (by simpa using h)
          simp only [List.getElem_cons_succ]
          rw [this]
          congr 1
          cases pos <;> rcases Nat.mod_two_eq_zero_or_one j with hj | hj <;>
            simp [Nat.add_mod, hj]

end VolatilityRadar

/-- C10: for every close series, the trades recorded by
`simulate_trading_strategy` have even length and strictly alternate,
with a buy at every even index and a sell at every odd index — so the list
begins with a buy when non-empty, ends with a sell (any open position is
closed at the final bar), and the `(2i, 2i+1)` buy/sell pairing read by
`calculate_strategy_performance` is always well-defined. -/
theorem simulate_trading_strategy_alternates (closes : List ℚ) :
    (VolatilityRadar.simulate_trading_strategy closes).length % 2 = 0 ∧
    ∀ (i : ℕ) (h : i < (VolatilityRadar.simulate_trading_strategy closes).length),
      ((VolatilityRadar.simulate_trading_strategy closes)[i]).1 =
        (if i % 2 = 0 then VolatilityRadar.TradeAction.buy
         else VolatilityRadar.TradeAction.sell) := by
  unfold VolatilityRadar.simulate_trading_strategy
  simp only
  have halt := VolatilityRadar.simLoop_altFrom 5 5 (VolatilityRadar.rows closes) false
  have hpar := VolatilityRadar.simLoop_parity 5 5 (VolatilityRadar.rows closes) false
  set r := VolatilityRadar.simLoop 5 5 (VolatilityRadar.rows closes) false with hrdef
  by_cases hr : r.2 = true
  · rw [if_pos hr]
    have hodd : r.1.length % 2 = 1 := by
      rcases Nat.mod_two_eq_zero_or_one r.1.length with h | h
      · exact absurd (hpar.mpr h) (by simp [hr])
      · exact h
    have halt2 : VolatilityRadar.altFrom false
        (r.1 ++ [(VolatilityRadar.TradeAction.sell, closes.length - 1,
          (closes.getLast?).getD 0)]) := by
      apply VolatilityRadar.altFrom_append_single r.1 false _ halt
      simp [hodd, VolatilityRadar.expAct]
    constructor
    · simp only [List.length_append, List.length_cons, List.length_nil]
      omega
    · intro i h
      have := VolatilityRadar.altFrom_getElem _ false halt2 i h
      rw [this]
      rcases Nat.mod_two_eq_zero_or_one i with hi | hi <;>
        simp [hi, VolatilityRadar.expAct]
  · rw [if_neg hr]
    have heven : r.1.length % 2 = 0 := by
      apply hpar.mp
      cases h2 : r.2
      · rfl
      · exact absurd h2 hr
    constructor
    · exact heven
    · intro i h
      have := VolatilityRadar.altFrom_getElem _ false halt i h
      rw [this]
      rcases Nat.mod_two_eq_zero_or_one i with hi | hi <;>
        simp [hi, VolatilityRadar.expAct]

/-- Witness for C10 at the series `[100, 90, 100]`, whose simulated trades
are a buy at bar 1 (5% dip) and a sell at bar 2 (5% rise). -/
theorem simulate_trading_strategy_alternates_witness :
    (VolatilityRadar.simulate_trading_strategy [100, 90, 100]).length % 2 = 0 ∧
      ((VolatilityRadar.simulate_trading_strategy [100, 90, 100]).get
        ⟨0, by
          norm_num [VolatilityRadar.simulate_trading_strategy, VolatilityRadar.rows,
            VolatilityRadar.rowsAux, VolatilityRadar.simLoop,
            VolatilityRadar.buy_signal, VolatilityRadar.sell_signal]⟩).1 =
        VolatilityRadar.TradeAction.buy := by
  refine ⟨(simulate_trading_strategy_alternates [100, 90, 100]).1, ?_⟩
  have := (simulate_trading_strategy_alternates [100, 90, 100]).2 0 (by
    norm_num [VolatilityRadar.simulate_trading_strategy, VolatilityRadar.rows,
      VolatilityRadar.rowsAux, VolatilityRadar.simLoop,
      VolatilityRadar.buy_signal, VolatilityRadar.sell_signal])
  simpa using this

namespace CryptoWatchDog

/-- The fields of a Coinbase 24h stats record that
`CryptoInvestmentScanner` reads, parsed to numbers as the script does with
`float(...)`. -/
structure Stats where
  id : String
  «open» : ℚ
  last : ℚ
  volume : ℚ
deriving DecidableEq, Repr

/-- `VOLUME_THRESHOLD`: $1 million in 24h dollar volume. -/
def VOLUME_THRESHOLD : ℚ := 1000000

/-- `PRICE_CHANGE_THRESHOLD`: 5% price change in 24h. -/
def PRICE_CHANGE_THRESHOLD : ℚ := 5

/-- `MAX_CURRENCIES_TO_MONITOR`. -/
def MAX_CURRENCIES_TO_MONITOR : ℕ := 20

/-- `CryptoInvestmentScanner.is_promising`: skip zero open price, then
require 24h dollar volume above `VOLUME_THRESHOLD` and absolute 24h price
change above `PRICE_CHANGE_THRESHOLD`. -/
def is_promising (stats : Stats) : Bool :=
  if stats.«open» = 0 then false
  else
    let volume := stats.volume * stats.last
    let price_change := |stats.last - stats.«open»| / stats.«open» * 100
    decide (volume > VOLUME_THRESHOLD ∧ price_change > PRICE_CHANGE_THRESHOLD)

/-- One step of Python `dict` construction from a key/value pair list:
a repeated key overwrites in place, a fresh key is appended. -/
def dictInsert (m : List (String × Stats)) (kv : String × Stats) :
    List (String × Stats) :=
  if m.any (fun p => p.1 == kv.1) then
    m.map (fun p => if p.1 == kv.1 then kv else p)
  else m ++ [kv]

/-- Python `dict(pairs)` as an association list (last value wins,
insertion order of first occurrence kept). -/
def dictOfList (l : List (String × Stats)) : List (String × Stats) :=
  l.foldl dictInsert []

/-- `CryptoInvestmentScanner.update_promising_currencies`: keep the fetched
stats records that exist and are promising, sort them by 24h dollar volume
descending, truncate to `MAX_CURRENCIES_TO_MONITOR` and store them as the
`currencies` dict keyed by currency id. -/
def update_promising_currencies (fetched : List (Option Stats)) :
    List (String × Stats) :=
  let promising_currencies :=
    ((fetched.filterMap id).filter is_promising).map (fun s => (s.id, s))
  let sorted := promising_currencies.mergeSort
    (fun a b => decide (b.2.volume * b.2.last ≤ a.2.volume * a.2.last))
  dictOfList (sorted.take MAX_CURRENCIES_TO_MONITOR)

theorem dictInsert_length (m : List (String × Stats)) (kv : String × Stats) :
    (dictInsert m kv).length ≤ m.length + 1 := by
  unfold dictInsert
  split
  · simp
  · simp

theorem dictInsert_mem (m : List (String × Stats)) (kv : String × Stats) :
    ∀ p ∈ dictInsert m kv, p ∈ m ∨ p = kv := by
  unfold dictInsert
  split
  · intro p hp
    rcases List.mem_map.mp hp with ⟨q, hq, hqe⟩
    by_cases h : q.1 == kv.1
    · right
      rw [if_pos h] at hqe
      exact hqe.symm
    · left
      rw [if_neg h] at hqe
      exact hqe ▸ hq
  · intro p hp
    rcases List.mem_append.mp hp with h | h
    · exact Or.inl h
    · exact Or.inr (by simpa using h)

theorem foldl_dictInsert_length :
    ∀ (l : List (String × Stats)) (acc : List (String × Stats)),
      (l.foldl dictInsert acc).length ≤ acc.length + l.length := by
  intro l
  induction l with
  | nil => intro acc; simp
  | cons kv rest ih =>
      intro acc
      simp only [List.foldl_cons, List.length_cons]
      have h1 := ih (dictInsert acc kv)
      have h2 := dictInsert_length acc kv
      omega

theorem foldl_dictInsert_mem :
    ∀ (l : List (String × Stats)) (acc : List (String × Stats))
      (p : String × Stats), p ∈ l.foldl dictInsert acc → p ∈ acc ∨ p ∈ l := by
  intro l
  induction l with
  | nil => intro acc p hp; exact Or.inl (by simpa using hp)
  | cons kv rest ih =>
      intro acc p hp
      rcases ih (dictInsert acc kv) p hp with h | h
      · rcases dictInsert_mem acc kv p h with h' | h'
        · exact Or.inl h'
        · exact Or.inr (by simp [h'])
      · exact Or.inr (List.mem_cons_of_mem kv h)

end CryptoWatchDog

/-- C9: after every `update_promising_currencies` pass, the retained
`currencies` mapping has at most `MAX_CURRENCIES_TO_MONITOR` (20) entries
and every stats record in it satisfies the `is_promising` predicate
(nonzero open price, 24h dollar volume above `VOLUME_THRESHOLD`, absolute
24h price change above `PRICE_CHANGE_THRESHOLD`). -/
theorem update_promising_currencies_invariant
    (fetched : List (Option CryptoWatchDog.Stats)) :
    (CryptoWatchDog.update_promising_currencies fetched).length ≤
        CryptoWatchDog.MAX_CURRENCIES_TO_MONITOR ∧
      (CryptoWatchDog.update_promising_currencies fetched).all
        (fun p => CryptoWatchDog.is_promising p.2) = true := by
  unfold CryptoWatchDog.update_promising_currencies
  simp only
  constructor
  · apply le_trans (CryptoWatchDog.foldl_dictInsert_length _ [])
    simp [CryptoWatchDog.MAX_CURRENCIES_TO_MONITOR]
  · rw [List.all_eq_true]
    intro p hp
    rcases CryptoWatchDog.foldl_dictInsert_mem _ [] p hp with h | h
    · simp at h
    · have h1 : p ∈ (((fetched.filterMap id).filter CryptoWatchDog.is_promising).map
        (fun s => (s.id, s))).mergeSort
          (fun a b => decide (b.2.volume * b.2.last ≤ a.2.volume * a.2.last)) :=
        List.take_subset _ _ h
      rw [List.mem_mergeSort] at h1
      rcases List.mem_map.mp h1 with ⟨s, hs, rfl⟩
      exact (List.mem_filter.mp hs).2

section RsiLemmas

theorem pdDiff_length (closes : List ℚ) : (pdDiff closes).length = closes.length := by
  cases closes with
  | nil => rfl
  | cons a rest =>
      simp [pdDiff, List.length_zipWith]

theorem rollingMean_length (w : ℕ) (xs : List PFloat) :
    (rollingMean w xs).length = xs.length := by
  simp [rollingMean]

/-- The last cell of a `(List.range n).map f` list, `n > 0`. -/
theorem ilocLast_map_range (f : ℕ → PFloat) (n : ℕ) (hn : 0 < n) :
    ilocLast ((List.range n).map f) = f (n - 1) := by
  unfold ilocLast
  rw [List.getD_eq_getElem?_getD, List.length_map, List.length_range,
    List.getElem?_map, List.getElem?_range (Nat.sub_lt hn one_pos)]
  rfl

/-- The last cell of a mapped series. -/
theorem ilocLast_map (f : PFloat → PFloat) (l : List PFloat) (h : l ≠ []) :
    ilocLast (l.map f) = f (ilocLast l) := by
  unfold ilocLast
  have hlt : l.length - 1 < l.length := Nat.sub_lt (List.length_pos.mpr h) one_pos
  rw [List.getD_eq_getElem?_getD, List.getD_eq_getElem?_getD, List.length_map,
    List.getElem?_map, List.getElem?_eq_getElem hlt]
  rfl

/-- The last cell of an element-wise combination of two equally long
series. -/
theorem ilocLast_zipWith (f : PFloat → PFloat → PFloat) (l₁ l₂ : List PFloat)
    (hlen : l₁.length = l₂.length) (h : l₁ ≠ []) :
    ilocLast (List.zipWith f l₁ l₂) = f (ilocLast l₁) (ilocLast l₂) := by
  unfold ilocLast
  have hlt : l₁.length - 1 < l₁.length := Nat.sub_lt (List.length_pos.mpr h) one_pos
  have hlt₂ : l₁.length - 1 < l₂.length := by omega
  rw [List.getD_eq_getElem?_getD, List.getD_eq_getElem?_getD,
    List.getD_eq_getElem?_getD, List.length_zipWith, hlen, Nat.min_self,
    ← hlen, List.getElem?_zipWith, List.getElem?_eq_getElem hlt,
    List.getElem?_eq_getElem hlt₂]
  rfl

/-- The last cell of a rolling mean, written out. -/
theorem ilocLast_rollingMean (w : ℕ) (xs : List PFloat) (h : xs ≠ []) :
    ilocLast (rollingMean w xs) =
      if xs.length - 1 + 1 < w then PFloat.nan
      else
        if ((xs.drop (xs.length - w)).take w).all PFloat.isFin = true
          then PFloat.fin (pfSum ((xs.drop (xs.length - w)).take w) / w)
          else PFloat.nan := by
  unfold rollingMean
  rw [ilocLast_map_range _ _ (List.length_pos.mpr h)]
  have hx : xs.length - 1 + 1 - w = xs.length - w := by
    have := List.length_pos.mpr h
    omega
  simp only [hx]

theorem pfSum_replicate_zero : ∀ n : ℕ, pfSum (List.replicate n (PFloat.fin 0)) = 0 := by
  intro n
  induction n with
  | zero => rfl
  | succ m ih => simp [List.replicate, pfSum, ih]

theorem pfSum_pos_of_pos :
    ∀ l : List PFloat, l ≠ [] → (∀ x ∈ l, ∃ q : ℚ, 0 < q ∧ x = PFloat.fin q) →
      0 < pfSum l := by
  intro l
  induction l with
  | nil => intro h; exact absurd rfl h
  | cons x rest ih =>
      intro _ hmem
      obtain ⟨q, hq, rfl⟩ := hmem x (List.mem_cons_self _ _)
      show 0 < q + pfSum rest
      rcases List.eq_nil_or_concat rest with rfl | -
      · simpa [pfSum] using hq
      · have hrest : 0 ≤ pfSum rest := by
          by_cases hr : rest = []
          · simp [hr, pfSum]
          · exact le_of_lt (ih hr (fun y hy => hmem y (List.mem_cons_of_mem _ hy)))
        linarith

theorem pfSum_nonneg_of_nonneg :
    ∀ l : List PFloat, (∀ q : ℚ, PFloat.fin q ∈ l → 0 ≤ q) → 0 ≤ pfSum l := by
  intro l
  induction l with
  | nil => intro _; simp [pfSum]
  | cons x rest ih =>
      intro hmem
      have hr : 0 ≤ pfSum rest := ih (fun q hq => hmem q (List.mem_cons_of_mem _ hq))
      cases x with
      | fin q =>
          have := hmem q (List.mem_cons_self _ _)
          show 0 ≤ q + pfSum rest
          linarith
      | inf => simpa [pfSum] using hr
      | ninf => simpa [pfSum] using hr
      | nan => simpa [pfSum] using hr

theorem allFin_of_pos (l : List PFloat)
    (h : ∀ x ∈ l, ∃ q : ℚ, 0 < q ∧ x = PFloat.fin q) :
    l.all PFloat.isFin = true := by
  rw [List.all_eq_true]
  intro x hx
  obtain ⟨q, -, rfl⟩ := h x hx
  rfl

/-- Every day-over-day delta of a strictly increasing close series is a
positive finite cell. -/
theorem zipWith_diff_pos :
    ∀ closes : List ℚ, closes.Chain' (· < ·) →
      ∀ x ∈ List.zipWith (fun a b => PFloat.fin (b - a)) closes closes.tail,
        ∃ q : ℚ, 0 < q ∧ x = PFloat.fin q := by
  intro closes
  induction closes with
  | nil => intro _ x hx; simp at hx
  | cons a rest ih =>
      intro hch x hx
      cases rest with
      | nil => simp at hx
      | cons b rest' =>
          rw [List.tail_cons, List.zipWith_cons_cons] at hx
          rcases List.mem_cons.mp hx with rfl | hx'
          · exact ⟨b - a, sub_pos.mpr (List.chain'_cons.mp hch).1, rfl⟩
          · exact ih (List.chain'_cons.mp hch).2 x hx'

/-- On a strictly increasing close series the loss column is identically
zero. -/
theorem map_lossOf_eq_replicate (closes : List ℚ) (h : closes.Chain' (· < ·)) :
    (pdDiff closes).map lossOf = List.replicate closes.length (PFloat.fin 0) := by
  rw [List.eq_replicate_iff]
  constructor
  · rw [List.length_map, pdDiff_length]
  · intro x hx
    rcases List.mem_map.mp hx with ⟨d, hd, rfl⟩
    cases closes with
    | nil => simp [pdDiff] at hd
    | cons a rest =>
        rcases List.mem_cons.mp hd with rfl | hd'
        · rfl
        · obtain ⟨q, hq, rfl⟩ := zipWith_diff_pos (a :: rest) h d hd'
          simp [lossOf, not_lt.mpr (le_of_lt hq)]

end RsiLemmas

/-- A cell of the delta series past the leading `NaN` is one of the
`zipWith` day-over-day differences. -/
theorem mem_zipWith_of_mem_drop_pdDiff (closes : List ℚ) (j : ℕ) (hj : 1 ≤ j)
    (d : PFloat) (hd : d ∈ (pdDiff closes).drop j) :
    d ∈ List.zipWith (fun a b => PFloat.fin (b - a)) closes closes.tail := by
  cases closes with
  | nil => simp [pdDiff] at hd
  | cons a rest =>
      have hpd : pdDiff (a :: rest) = PFloat.nan ::
          List.zipWith (fun x y => PFloat.fin (y - x)) (a :: rest) (a :: rest).tail := rfl
      rw [hpd] at hd
      obtain ⟨j', rfl⟩ : ∃ j', j = j' + 1 := ⟨j - 1, by omega⟩
      rw [List.drop_succ_cons] at hd
      exact List.drop_subset _ _ hd

/-- C2: RSI loss-zero edge case.  For every close series of at least
`window + 1` bars rising strictly monotonically, the rolling loss is zero
and `calculate_rsi` reads exactly 100 on the final bar — the float
pipeline turns `gain/0` into `+inf` and `100 - 100/(1 + inf)` into `100`,
so the result is neither `NaN` nor a division error. -/
theorem calculate_rsi_last_eq_100_of_monotone (closes : List ℚ) (w : ℕ)
    (hw : 1 ≤ w) (hlen : w + 1 ≤ closes.length)
    (hch : closes.Chain' (· < ·)) :
    ilocLast (StockRadar.calculate_rsi closes w) = PFloat.fin 100 := by
  have hne : closes ≠ [] := by
    intro h
    rw [h] at hlen
    simp at hlen
  have hn0 : 0 < closes.length := List.length_pos.mpr hne
  -- the loss column rolls to zero
  have hLlast : ilocLast (rollingMean w ((pdDiff closes).map lossOf)) = PFloat.fin 0 := by
    rw [map_lossOf_eq_replicate closes hch,
      ilocLast_rollingMean w _ (by
        rw [← List.length_pos, List.length_replicate]
        omega)]
    rw [List.length_replicate, if_neg (by omega), List.drop_replicate, List.take_replicate]
    have hmin : w ⊓ (closes.length - (closes.length - w)) = w := by omega
    rw [hmin, if_pos ?_]
    · rw [pfSum_replicate_zero]
      norm_num
    · rw [List.all_eq_true]
      intro x hx
      rw [(List.mem_replicate.mp hx).2]
      rfl
  -- the gain column rolls to a positive mean
  have hGlast : ∃ g : ℚ, 0 < g ∧
      ilocLast (rollingMean w ((pdDiff closes).map gainOf)) = PFloat.fin g := by
    have hxslen : ((pdDiff closes).map gainOf).length = closes.length := by
      rw [List.length_map, pdDiff_length]
    have hxne : (pdDiff closes).map gainOf ≠ [] := by
      rw [← List.length_pos, hxslen]
      omega
    rw [ilocLast_rollingMean w _ hxne, hxslen]
    set W := ((((pdDiff closes).map gainOf)).drop (closes.length - w)).take w with hW
    have hWpos : ∀ x ∈ W, ∃ q : ℚ, 0 < q ∧ x = PFloat.fin q := by
      intro x hx
      have hx' : x ∈ ((pdDiff closes).map gainOf).drop (closes.length - w) :=
        List.take_subset _ _ hx
      rw [← List.map_drop] at hx'
      rcases List.mem_map.mp hx' with ⟨d, hd, rfl⟩
      have hd2 := mem_zipWith_of_mem_drop_pdDiff closes (closes.length - w)
        (by omega) d hd
      obtain ⟨q, hq, rfl⟩ := zipWith_diff_pos closes hch d hd2
      exact ⟨q, hq, by simp [gainOf, hq]⟩
    have hWlen : W.length = w := by
      rw [hW, List.length_take, List.length_drop, hxslen]
      omega
    have hWne : W ≠ [] := by
      intro h0
      rw [h0] at hWlen
      simp at hWlen
      omega
    refine ⟨pfSum W / w, ?_, ?_⟩
    · exact div_pos (pfSum_pos_of_pos W hWne hWpos)
        (by exact_mod_cast (by omega : 0 < w))
    · rw [if_neg (by omega), if_pos (allFin_of_pos W hWpos)]
  obtain ⟨g, hg, hGl⟩ := hGlast
  -- assemble the pipeline
  show ilocLast ((List.zipWith PFloat.div
      (rollingMean w ((pdDiff closes).map gainOf))
      (rollingMean w ((pdDiff closes).map lossOf))).map
        (fun r => PFloat.sub (PFloat.fin 100)
          (PFloat.div (PFloat.fin 100) (PFloat.add (PFloat.fin 1) r)))) = PFloat.fin 100
  have hGlen : (rollingMean w ((pdDiff closes).map gainOf)).length = closes.length := by
    rw [rollingMean_length, List.length_map, pdDiff_length]
  have hLlen : (rollingMean w ((pdDiff closes).map lossOf)).length = closes.length := by
    rw [rollingMean_length, List.length_map, pdDiff_length]
  have hGne : rollingMean w ((pdDiff closes).map gainOf) ≠ [] := by
    rw [← List.length_pos, hGlen]
    exact hn0
  have hrsne : List.zipWith PFloat.div
      (rollingMean w ((pdDiff closes).map gainOf))
      (rollingMean w ((pdDiff closes).map lossOf)) ≠ [] := by
    rw [← List.length_pos, List.length_zipWith, hGlen, hLlen]
    simpa using hn0
  rw [ilocLast_map _ _ hrsne,
    ilocLast_zipWith PFloat.div _ _ (by rw [hGlen, hLlen]) hGne, hGl, hLlast]
  have hdiv : PFloat.div (PFloat.fin g) (PFloat.fin 0) = PFloat.inf := by
    simp [PFloat.div, ne_of_gt hg, hg]
  rw [hdiv]
  show PFloat.fin (100 + -0) = PFloat.fin 100
  norm_num

/-- The claim's example series: 30 daily bars rising monotonically from
100 towards 130. -/
def monotoneCloses30 : List ℚ :=
  [100, 101, 102, 103, 104, 105, 106, 107, 108, 109,
   110, 111, 112, 113, 114, 115, 116, 117, 118, 119,
   120, 121, 122, 123, 124, 125, 126, 127, 128, 129]

/-- Witness for C2 at the claim's 30-bar monotone series with the default
RSI window 14. -/
theorem calculate_rsi_last_eq_100_of_monotone_witness :
    (1 ≤ 14 ∧ 14 + 1 ≤ monotoneCloses30.length ∧
        List.Chain' (· < ·) monotoneCloses30) ∧
      ilocLast (StockRadar.calculate_rsi monotoneCloses30 14) = PFloat.fin 100 :=
  ⟨⟨by norm_num, by norm_num [monotoneCloses30],
      by norm_num [monotoneCloses30, List.chain'_cons]⟩,
    calculate_rsi_last_eq_100_of_monotone monotoneCloses30 14 (by norm_num)
      (by norm_num [monotoneCloses30])
      (by norm_num [monotoneCloses30, List.chain'_cons])⟩

theorem mem_zipWith_exists {α β γ : Type _} (f : α → β → γ) :
    ∀ (l₁ : List α) (l₂ : List β) (x : γ), x ∈ List.zipWith f l₁ l₂ →
      ∃ a ∈ l₁, ∃ b ∈ l₂, x = f a b := by
  intro l₁
  induction l₁ with
  | nil => intro l₂ x hx; simp at hx
  | cons a as ih =>
      intro l₂ x hx
      cases l₂ with
      | nil => simp at hx
      | cons b bs =>
          rw [List.zipWith_cons_cons] at hx
          rcases List.mem_cons.mp hx with rfl | hx'
          · exact ⟨a, List.mem_cons_self _ _, b, List.mem_cons_self _ _, rfl⟩
          · obtain ⟨a', ha, b', hb, rfl⟩ := ih bs x hx'
            exact ⟨a', List.mem_cons_of_mem _ ha, b', List.mem_cons_of_mem _ hb, rfl⟩

theorem gainOf_fin_nonneg (d : PFloat) (q : ℚ) (h : gainOf d = PFloat.fin q) :
    0 ≤ q := by
  cases d with
  | fin a =>
      by_cases ha : 0 < a
      · simp [gainOf, ha] at h
        linarith
      · simp [gainOf, ha] at h
        linarith
  | inf => simp [gainOf] at h
  | ninf =>
      simp [gainOf] at h
      linarith
  | nan =>
      simp [gainOf] at h
      linarith

theorem lossOf_fin_nonneg (d : PFloat) (q : ℚ) (h : lossOf d = PFloat.fin q) :
    0 ≤ q := by
  cases d with
  | fin a =>
      by_cases ha : a < 0
      · simp [lossOf, ha] at h
        linarith
      · simp [lossOf, ha] at h
        linarith
  | inf =>
      simp [lossOf] at h
      linarith
  | ninf => simp [lossOf] at h
  | nan =>
      simp [lossOf] at h
      linarith

/-- A rolling-mean cell over a series of non-negative finite-or-infinite
cells is `NaN` or a non-negative finite number. -/
theorem rollingMean_mem_shape (w : ℕ) (xs : List PFloat)
    (hx : ∀ q : ℚ, PFloat.fin q ∈ xs → 0 ≤ q) :
    ∀ y ∈ rollingMean w xs, y = PFloat.nan ∨ ∃ g : ℚ, 0 ≤ g ∧ y = PFloat.fin g := by
  intro y hy
  unfold rollingMean at hy
  rcases List.mem_map.mp hy with ⟨i, -, rfl⟩
  by_cases h1 : i + 1 < w
  · left
    simp [h1]
  · by_cases h2 : ((xs.drop (i + 1 - w)).take w).all PFloat.isFin = true
    · right
      refine ⟨pfSum ((xs.drop (i + 1 - w)).take w) / w, ?_, by simp [h1, h2]⟩
      apply div_nonneg
      · apply pfSum_nonneg_of_nonneg
        intro q hq
        exact hx q (List.drop_subset _ _ (List.take_subset _ _ hq))
      · exact Nat.cast_nonneg w
    · left
      simp [h1, h2]

/-- Dividing two NaN-or-non-negative-finite cells gives `NaN`, `+inf` or a
non-negative finite quotient. -/
theorem div_shape (a b : PFloat)
    (ha : a = PFloat.nan ∨ ∃ g : ℚ, 0 ≤ g ∧ a = PFloat.fin g)
    (hb : b = PFloat.nan ∨ ∃ g : ℚ, 0 ≤ g ∧ b = PFloat.fin g) :
    PFloat.div a b = PFloat.nan ∨ PFloat.div a b = PFloat.inf ∨
      ∃ r : ℚ, 0 ≤ r ∧ PFloat.div a b = PFloat.fin r := by
  rcases ha with rfl | ⟨g, hg, rfl⟩
  · left
    cases b <;> rfl
  · rcases hb with rfl | ⟨l, hl, rfl⟩
    · left
      rfl
    · by_cases hl0 : l = 0
      · subst hl0
        by_cases hg0 : g = 0
        · left
          simp [PFloat.div, hg0]
        · right
          left
          simp [PFloat.div, hg0, lt_of_le_of_ne hg (Ne.symm hg0)]
      · right
        right
        have hlpos : 0 < l := lt_of_le_of_ne hl (Ne.symm hl0)
        exact ⟨g / l, div_nonneg hg (le_of_lt hlpos), by simp [PFloat.div, hl0]⟩

/-- The element-wise RSI formula `100 - 100/(1 + rs)` stays in `[0, 100]`
whenever it produces a finite value from a NaN/`+inf`/non-negative `rs`. -/
theorem rsiMap_bounds (r : PFloat)
    (hr : r = PFloat.nan ∨ r = PFloat.inf ∨ ∃ s : ℚ, 0 ≤ s ∧ r = PFloat.fin s)
    (q : ℚ)
    (h : PFloat.sub (PFloat.fin 100)
      (PFloat.div (PFloat.fin 100) (PFloat.add (PFloat.fin 1) r)) = PFloat.fin q) :
    0 ≤ q ∧ q ≤ 100 := by
  rcases hr with rfl | rfl | ⟨s, hs, rfl⟩
  · simp [PFloat.add, PFloat.div, PFloat.sub, PFloat.neg] at h
  · simp only [PFloat.add, PFloat.div, PFloat.sub, PFloat.neg, PFloat.fin.injEq] at h
    constructor <;> linarith
  · have h1 : (0:ℚ) < 1 + s := by linarith
    simp only [PFloat.add] at h
    rw [show PFloat.div (PFloat.fin 100) (PFloat.fin (1 + s)) =
        PFloat.fin (100 / (1 + s)) from by simp [PFloat.div, ne_of_gt h1]] at h
    simp only [PFloat.sub, PFloat.neg, PFloat.add, PFloat.fin.injEq] at h
    have h2 : 0 < 100 / (1 + s) := by positivity
    have h3 : 100 / (1 + s) ≤ 100 := by
      rw [div_le_iff₀ h1]
      nlinarith
    constructor <;> linarith

/-- C5: RSI bounds.  Every finite (non-NaN) cell of the RSI series produced
by the rolling gain/loss formula lies in the closed interval `[0, 100]`,
for every close series and window. -/
theorem calculate_rsi_mem_bounds (data : List ℚ) (window : ℕ) (q : ℚ)
    (hq : PFloat.fin q ∈ StockRadar.calculate_rsi data window) :
    0 ≤ q ∧ q ≤ 100 := by
  have hq2 : PFloat.fin q ∈ (List.zipWith PFloat.div
      (rollingMean window ((pdDiff data).map gainOf))
      (rollingMean window ((pdDiff data).map lossOf))).map
        (fun r => PFloat.sub (PFloat.fin 100)
          (PFloat.div (PFloat.fin 100) (PFloat.add (PFloat.fin 1) r))) := hq
  rcases List.mem_map.mp hq2 with ⟨r, hr, hre⟩
  obtain ⟨a, ha, b, hb, rfl⟩ := mem_zipWith_exists PFloat.div _ _ r hr
  have hA := rollingMean_mem_shape window ((pdDiff data).map gainOf)
    (fun q' hq' => by
      rcases List.mem_map.mp hq' with ⟨d, -, he⟩
      exact gainOf_fin_nonneg d q' he) a ha
  have hB := rollingMean_mem_shape window ((pdDiff data).map lossOf)
    (fun q' hq' => by
      rcases List.mem_map.mp hq' with ⟨d, -, he⟩
      exact lossOf_fin_nonneg d q' he) b hb
  exact rsiMap_bounds (PFloat.div a b) (div_shape a b hA hB) q hre

/-- Witness for C5: on the two-bar series `[1, 2]` with window 1 the RSI
series contains the finite value 100, which the theorem bounds. -/
theorem calculate_rsi_mem_bounds_witness :
    PFloat.fin 100 ∈ StockRadar.calculate_rsi [1, 2] 1 ∧
      0 ≤ (100:ℚ) ∧ (100:ℚ) ≤ 100 := by
  have hmem : PFloat.fin 100 ∈ StockRadar.calculate_rsi [1, 2] 1 := by
    norm_num [StockRadar.calculate_rsi, pdDiff, rollingMean, gainOf, lossOf, pfSum,
      PFloat.div, PFloat.add, PFloat.sub, PFloat.neg, PFloat.isFin, List.range_succ]
  exact ⟨hmem, calculate_rsi_mem_bounds [1, 2] 1 100 hmem⟩

/-- A float value in the volatility/Sharpe computations: a finite real
number, `±inf` or `NaN`.  Real-valued because these paths take square
roots (and, in cb-volatility-list.py, logarithms). -/
inductive EFloat where
  | fin (x : ℝ)
  | inf
  | ninf
  | nan

namespace EFloat

open Classical in
/-- IEEE-style multiplication on `EFloat`. -/
noncomputable def mul : EFloat → EFloat → EFloat
  | fin a, fin b => fin (a * b)
  | fin a, inf => if a = 0 then nan else if 0 < a then inf else ninf
  | inf, fin b => if b = 0 then nan else if 0 < b then inf else ninf
  | fin a, ninf => if a = 0 then nan else if 0 < a then ninf else inf
  | ninf, fin b => if b = 0 then nan else if 0 < b then ninf else inf
  | inf, inf => inf
  | ninf, ninf => inf
  | inf, ninf => ninf
  | ninf, inf => ninf
  | nan, _ => nan
  | _, nan => nan

open Classical in
/-- IEEE-style division on `EFloat`: a nonzero finite numerator over
(positive) zero gives a signed infinity, `0/0` gives `NaN`. -/
noncomputable def div : EFloat → EFloat → EFloat
  | fin a, fin b =>
      if b = 0 then (if a = 0 then nan else if 0 < a then inf else ninf)
      else fin (a / b)
  | fin _, inf => fin 0
  | fin _, ninf => fin 0
  | inf, fin b => if 0 ≤ b then inf else ninf
  | ninf, fin b => if 0 ≤ b then ninf else inf
  | inf, inf => nan
  | inf, ninf => nan
  | ninf, inf => nan
  | ninf, ninf => nan
  | nan, _ => nan
  | _, nan => nan

end EFloat

/-- `Series.mean()` of a NaN-free rational series (pandas skips the
leading `NaN` of a `pct_change`, which the embedding already drops). -/
def meanQ (xs : List ℚ) : ℚ := xs.sum / xs.length

/-- Sample variance with the pandas default `ddof = 1`. -/
def sampleVarQ (xs : List ℚ) : ℚ :=
  (xs.map (fun x => (x - meanQ xs) ^ 2)).sum / ((xs.length : ℚ) - 1)

/-- `Series.std()` (pandas default `ddof = 1`): `NaN` on fewer than two
observations, else the square root of the sample variance. -/
noncomputable def stdE (xs : List ℚ) : EFloat :=
  if xs.length < 2 then EFloat.nan else EFloat.fin (Real.sqrt (sampleVarQ xs))

/-- Mean of a real-valued series. -/
noncomputable def meanR (xs : List ℝ) : ℝ := xs.sum / xs.length

/-- Sample variance (`ddof = 1`) of a real-valued series. -/
noncomputable def sampleVarR (xs : List ℝ) : ℝ :=
  (xs.map (fun x => (x - meanR xs) ^ 2)).sum / ((xs.length : ℝ) - 1)

/-- `Series.std()` for a real-valued series. -/
noncomputable def stdER (xs : List ℝ) : EFloat :=
  if xs.length < 2 then EFloat.nan else EFloat.fin (Real.sqrt (sampleVarR xs))

namespace VolatilityRadar

/-- `df['close'].pct_change()` with the leading `NaN` cell dropped, since
the downstream `std`/`mean` skip `NaN`; prices are assumed nonzero (the
scripts' close prices are positive), so no division-by-zero cell arises. -/
def pct_change (closes : List ℚ) : List ℚ :=
  List.zipWith (fun a b => (b - a) / a) closes closes.tail

/-- `calculate_metrics` from VolatilityRadar.py (the same
volatility/Sharpe formulas appear in scrap.py): `NaN` across the board
under 14 bars, otherwise annualized volatility `std(returns)·√365`,
Sharpe ratio `mean(returns)·365 / volatility`, last 20-bar SMA and last
RSI(14). -/
noncomputable def calculate_metrics (closes : List ℚ) :
    EFloat × EFloat × PFloat × PFloat :=
  if closes.length < 14 then (EFloat.nan, EFloat.nan, PFloat.nan, PFloat.nan)
  else
    let returns := pct_change closes
    let volatility := EFloat.mul (stdE returns) (EFloat.fin (Real.sqrt 365))
    let sharpe_ratio := EFloat.div (EFloat.fin ((meanQ returns : ℝ) * 365)) volatility
    let sma_20 := rollingMean 20 (closes.map PFloat.fin)
    let rsi := StockRadar.calculate_rsi closes 14
    (volatility, sharpe_ratio, ilocLast sma_20, ilocLast rsi)

end VolatilityRadar

namespace CbVolatilityList

/-- `np.log(close / close.shift(1))` with the leading `NaN` dropped. -/
noncomputable def log_returns (closes : List ℚ) : List ℝ :=
  List.zipWith (fun a b => Real.log ((b : ℝ) / (a : ℝ))) closes closes.tail

/-- `calculate_volatility` from cb-volatility-list.py: `NaN` under 7 bars,
otherwise the log-return standard deviation annualized by `√365`. -/
noncomputable def calculate_volatility (closes : List ℚ) : EFloat :=
  if closes.length < 7 then EFloat.nan
  else EFloat.mul (stdER (log_returns closes)) (EFloat.fin (Real.sqrt 365))

end CbVolatilityList

namespace CryptoVolatilityTracker

/-- The constructor default `window = 24` of `CryptoVolatilityTracker`
(24 hourly bars). -/
def windowDefault : ℕ := 24

/-- `CryptoVolatilityTracker.calculate_volatility` from
VolatilityHunter.py: pct-return standard deviation multiplied by
`np.sqrt(self.window)` — the window size, not the periods per year. -/
noncomputable def calculate_volatility (window : ℕ) (closes : List ℚ) : EFloat :=
  EFloat.mul (stdE (VolatilityRadar.pct_change closes))
    (EFloat.fin (Real.sqrt window))

end CryptoVolatilityTracker

/-- The spec's words for C7: every script's volatility is the return
standard deviation annualized by `√365` (compared below against the
embedded source definitions). -/
noncomputable def specVolatilitySqrt365 (closes : List ℚ) : EFloat :=
  EFloat.mul (stdE (VolatilityRadar.pct_change closes))
    (EFloat.fin (Real.sqrt 365))

/-- C4: minimum-window undefinedness.  A series shorter than 7 bars gets a
`NaN` annualized volatility from `calculate_volatility`
(cb-volatility-list.py), and a series shorter than 14 bars gets `NaN` for
all four indicators of `calculate_metrics` (VolatilityRadar.py) — the
values are NaN, never the number zero. -/
theorem short_series_indicators_nan (closes : List ℚ) :
    (closes.length < 7 →
      CbVolatilityList.calculate_volatility closes = EFloat.nan) ∧
    (closes.length < 14 →
      VolatilityRadar.calculate_metrics closes =
        (EFloat.nan, EFloat.nan, PFloat.nan, PFloat.nan)) := by
  constructor
  · intro h
    simp [CbVolatilityList.calculate_volatility, h]
  · intro h
    simp [VolatilityRadar.calculate_metrics, h]

/-- Witness for C4 at the three-bar series `[1, 2, 3]`. -/
theorem short_series_indicators_nan_witness :
    CbVolatilityList.calculate_volatility [1, 2, 3] = EFloat.nan ∧
      VolatilityRadar.calculate_metrics [1, 2, 3] =
        (EFloat.nan, EFloat.nan, PFloat.nan, PFloat.nan) :=
  ⟨(short_series_indicators_nan [1, 2, 3]).1 (by norm_num),
   (short_series_indicators_nan [1, 2, 3]).2 (by norm_num)⟩

theorem pct_change_replicate (n : ℕ) (c : ℚ) :
    VolatilityRadar.pct_change (List.replicate n c) = List.replicate (n - 1) 0 := by
  unfold VolatilityRadar.pct_change
  rw [List.tail_replicate, List.zipWith_replicate,
    show n ⊓ (n - 1) = n - 1 by omega, show (c - c) / c = (0:ℚ) by simp]

theorem meanQ_replicate_zero (m : ℕ) : meanQ (List.replicate m 0) = 0 := by
  simp [meanQ, List.sum_replicate]

theorem sampleVarQ_replicate_zero (m : ℕ) :
    sampleVarQ (List.replicate m 0) = 0 := by
  simp [sampleVarQ, meanQ_replicate_zero, List.map_replicate, List.sum_replicate]

theorem stdE_replicate_zero (m : ℕ) (hm : 2 ≤ m) :
    stdE (List.replicate m 0) = EFloat.fin 0 := by
  unfold stdE
  rw [if_neg (by simp; omega), sampleVarQ_replicate_zero]
  norm_num

/-- C6 (amended): for constant positive closes over at least 20 bars the
pct returns are identically zero, the annualized volatility is exactly 0
and the Sharpe ratio is `0/0 = NaN`. -/
theorem constant_closes_vol_zero_sharpe_nan (c : ℚ) (hc : 0 < c)
    (n : ℕ) (hn : 20 ≤ n) :
    (VolatilityRadar.calculate_metrics (List.replicate n c)).1 = EFloat.fin 0 ∧
      (VolatilityRadar.calculate_metrics (List.replicate n c)).2.1 = EFloat.nan := by
  have hstd : stdE (List.replicate (n - 1) 0) = EFloat.fin 0 :=
    stdE_replicate_zero (n - 1) (by omega)
  unfold VolatilityRadar.calculate_metrics
  rw [if_neg (by simp; omega)]
  simp only [pct_change_replicate, hstd, meanQ_replicate_zero]
  constructor
  · show EFloat.fin (0 * Real.sqrt 365) = EFloat.fin 0
    rw [zero_mul]
  · show EFloat.div (EFloat.fin (((0:ℚ):ℝ) * 365))
      (EFloat.fin (0 * Real.sqrt 365)) = EFloat.nan
    rw [zero_mul, show (((0:ℚ):ℝ) * 365) = 0 by norm_num]
    simp [EFloat.div]

/-- Witness for C6's amended claim at 20 bars of constant close 100. -/
theorem constant_closes_vol_zero_sharpe_nan_witness :
    (0 < (100:ℚ) ∧ 20 ≤ 20) ∧
      ((VolatilityRadar.calculate_metrics (List.replicate 20 (100:ℚ))).1 =
          EFloat.fin 0 ∧
        (VolatilityRadar.calculate_metrics (List.replicate 20 (100:ℚ))).2.1 =
          EFloat.nan) :=
  ⟨⟨by norm_num, by norm_num⟩,
    constant_closes_vol_zero_sharpe_nan 100 (by norm_num) 20 (by norm_num)⟩

/-- A 20-bar close series doubling every bar: every pct return is exactly
1, so the return standard deviation is zero while the mean return is
nonzero. -/
def geometricCloses20 : List ℚ :=
  [1, 2, 4, 8, 16, 32, 64, 128, 256, 512, 1024, 2048, 4096, 8192,
   16384, 32768, 65536, 131072, 262144, 524288]

/-- Counterexample to C6 as stated: `geometricCloses20` has per-bar
returns with zero standard deviation, yet `calculate_metrics` computes a
Sharpe ratio of `+inf` (float `365/0`), not `NaN` — the claim's "for every
series whose returns have zero standard deviation" is too broad; only
zero-mean (constant-close) series give `NaN`. -/
theorem zero_std_sharpe_inf_counterexample :
    sampleVarQ (VolatilityRadar.pct_change geometricCloses20) = 0 ∧
      (VolatilityRadar.calculate_metrics geometricCloses20).2.1 = EFloat.inf ∧
      (VolatilityRadar.calculate_metrics geometricCloses20).2.1 ≠ EFloat.nan := by
  have hret : VolatilityRadar.pct_change geometricCloses20 =
      List.replicate 19 1 := by
    norm_num [VolatilityRadar.pct_change, geometricCloses20, List.replicate]
  have hvar : sampleVarQ (List.replicate 19 (1:ℚ)) = 0 := by
    norm_num [sampleVarQ, meanQ, List.replicate]
  have hmean : meanQ (List.replicate 19 (1:ℚ)) = 1 := by
    norm_num [meanQ, List.replicate]
  have hstd : stdE (List.replicate 19 (1:ℚ)) = EFloat.fin 0 := by
    unfold stdE
    rw [if_neg (by simp), hvar]
    norm_num
  have hsharpe : (VolatilityRadar.calculate_metrics geometricCloses20).2.1 =
      EFloat.inf := by
    unfold VolatilityRadar.calculate_metrics
    rw [if_neg (by norm_num [geometricCloses20])]
    simp only [hret, hstd, hmean]
    show EFloat.div (EFloat.fin (((1:ℚ):ℝ) * 365))
      (EFloat.fin (0 * Real.sqrt 365)) = EFloat.inf
    rw [zero_mul, show (((1:ℚ):ℝ) * 365) = 365 by norm_num]
    simp only [EFloat.div]
    norm_num
  refine ⟨by rw [hret]; exact hvar, hsharpe, ?_⟩
  rw [hsharpe]
  exact fun h => EFloat.noConfusion h

theorem pct_change_length (closes : List ℚ) :
    (VolatilityRadar.pct_change closes).length = closes.length - 1 := by
  unfold VolatilityRadar.pct_change
  rw [List.length_zipWith, List.length_tail]
  omega

theorem EFloat.mul_fin (a b : ℝ) :
    EFloat.mul (EFloat.fin a) (EFloat.fin b) = EFloat.fin (a * b) := rfl

/-- A 14-bar close series with one jump: its pct returns are twelve zeros
followed by a one, so their sample variance is positive. -/
def unevenCloses14 : List ℚ := [1, 1, 1, 1, 1, 1, 1, 1, 1, 1, 1, 1, 1, 2]

/-- Counterexample to C7 as stated: on `unevenCloses14`,
`CryptoVolatilityTracker.calculate_volatility` with its default window
(24) disagrees with the spec's `std(returns) × √365` — the script
annualizes by `√window`, not `√365`. -/
theorem hunter_annualizes_by_window_counterexample :
    CryptoVolatilityTracker.calculate_volatility
        CryptoVolatilityTracker.windowDefault unevenCloses14 ≠
      specVolatilitySqrt365 unevenCloses14 := by
  have hvarpos : 0 < sampleVarQ (VolatilityRadar.pct_change unevenCloses14) := by
    norm_num [VolatilityRadar.pct_change, unevenCloses14, sampleVarQ, meanQ]
  have hl2 : ¬ (VolatilityRadar.pct_change unevenCloses14).length < 2 := by
    rw [pct_change_length]
    norm_num [unevenCloses14]
  intro h
  unfold CryptoVolatilityTracker.calculate_volatility specVolatilitySqrt365
    CryptoVolatilityTracker.windowDefault stdE at h
  rw [if_neg hl2, EFloat.mul_fin, EFloat.mul_fin, EFloat.fin.injEq] at h
  have hsv : 0 < Real.sqrt ((sampleVarQ (VolatilityRadar.pct_change unevenCloses14) : ℚ) : ℝ) :=
    Real.sqrt_pos.mpr (by exact_mod_cast hvarpos)
  have h3 := mul_left_cancel₀ (ne_of_gt hsv) h
  have hlt : Real.sqrt (((24:ℕ)):ℝ) < Real.sqrt 365 := by
    rw [show (((24:ℕ)):ℝ) = (24:ℝ) by norm_num]
    exact Real.sqrt_lt_sqrt (by norm_num) (by norm_num)
  exact absurd h3 (ne_of_lt hlt)

/-- C7 (amended): VolatilityRadar.py (and identically scrap.py) and
cb-volatility-list.py annualize their return standard deviation by √365
as the spec says, but VolatilityHunter.py multiplies by √window with
window = 24 by default — so on every series of at least 14 bars whose pct
returns have positive sample variance, VolatilityHunter's volatility
differs from VolatilityRadar's. -/
theorem radar_sqrt365_hunter_sqrt_window (closes : List ℚ)
    (hlen : 14 ≤ closes.length)
    (hvar : 0 < sampleVarQ (VolatilityRadar.pct_change closes)) :
    (VolatilityRadar.calculate_metrics closes).1 = specVolatilitySqrt365 closes ∧
      (VolatilityRadar.calculate_metrics closes).1 ≠
        CryptoVolatilityTracker.calculate_volatility
          CryptoVolatilityTracker.windowDefault closes := by
  have h1 : (VolatilityRadar.calculate_metrics closes).1 =
      specVolatilitySqrt365 closes := by
    unfold VolatilityRadar.calculate_metrics specVolatilitySqrt365
    rw [if_neg (by omega)]
  refine ⟨h1, ?_⟩
  rw [h1]
  have hl2 : ¬ (VolatilityRadar.pct_change closes).length < 2 := by
    rw [pct_change_length]
    omega
  intro h
  unfold specVolatilitySqrt365 CryptoVolatilityTracker.calculate_volatility
    CryptoVolatilityTracker.windowDefault stdE at h
  rw [if_neg hl2, EFloat.mul_fin, EFloat.mul_fin, EFloat.fin.injEq] at h
  have hsv : 0 < Real.sqrt ((sampleVarQ (VolatilityRadar.pct_change closes) : ℚ) : ℝ) :=
    Real.sqrt_pos.mpr (by exact_mod_cast hvar)
  have h3 := mul_left_cancel₀ (ne_of_gt hsv) h
  have hlt : Real.sqrt (((24:ℕ)):ℝ) < Real.sqrt 365 := by
    rw [show (((24:ℕ)):ℝ) = (24:ℝ) by norm_num]
    exact Real.sqrt_lt_sqrt (by norm_num) (by norm_num)
  exact absurd h3.symm (ne_of_lt hlt)

/-- Witness for C7's amended claim at `unevenCloses14`. -/
theorem radar_sqrt365_hunter_sqrt_window_witness :
    (14 ≤ unevenCloses14.length ∧
        0 < sampleVarQ (VolatilityRadar.pct_change unevenCloses14)) ∧
      ((VolatilityRadar.calculate_metrics unevenCloses14).1 =
          specVolatilitySqrt365 unevenCloses14 ∧
        (VolatilityRadar.calculate_metrics unevenCloses14).1 ≠
          CryptoVolatilityTracker.calculate_volatility
            CryptoVolatilityTracker.windowDefault unevenCloses14) :=
  ⟨⟨by norm_num [unevenCloses14],
      by norm_num [VolatilityRadar.pct_change, unevenCloses14, sampleVarQ, meanQ]⟩,
    radar_sqrt365_hunter_sqrt_window unevenCloses14
      (by norm_num [unevenCloses14])
      (by norm_num [VolatilityRadar.pct_change, unevenCloses14, sampleVarQ, meanQ])⟩
